import Mathlib

/-!
Verification of the okami-d3d12 GPU upload pipeline and descriptor allocator.

The definitions below are a shallow embedding of the C++ sources:
* `DescriptorPool` — src/d3d12_descriptor_pool.cpp (`Alloc`, `Free`);
* `Sizer` — src/d3d12_common.hpp (`Sizer::GetNextSize`, `Sizer::Reset`);
* `UploaderState` and its step function — src/d3d12_upload.cpp
  (`GpuUploaderImpl::ThreadFunc`, `GetExecutableCommandListIfAny`,
  `FetchAndFinalizeTasks`).

Machine integers (`UINT`, `uint32_t`) are embedded as `Nat` with explicit
`% 2^32` at the operations whose overflow behaviour the C++ source relies
on (`m_freeBlockStart++`, `m_freeBlockStart - 1`).  A C++ `throw` is
embedded as an absorbing "halted" flag: once a straight-line sequence of
operations throws, no further operation of that sequence executes.
C++ `double` fields are embedded as rationals.
-/

namespace Okami

/-- `2^32`, the modulus of the C++ `uint32_t` arithmetic used by
`DescriptorPool` (`Handle = uint32_t`, `m_freeBlockStart : Handle`). -/
def U32MOD : ℕ := 2 ^ 32

/-- `x + 1` on `uint32_t` (the `m_freeBlockStart++` in `Alloc`). -/
def u32succ (x : ℕ) : ℕ := (x + 1) % U32MOD

/-- `x - 1` on `uint32_t` (the `m_freeBlockStart - 1` in `Alloc`/`Free`). -/
def u32pred (x : ℕ) : ℕ := (x + (U32MOD - 1)) % U32MOD

/-- The allocator state of `okami::DescriptorPool`
(src/d3d12_descriptor_pool.hpp).  The D3D12 heap object and the CPU/GPU
base addresses take no part in the allocation logic and are omitted;
`m_count`, `m_freeIndices` (a `std::set<uint32_t>`, here a `Finset ℕ`)
and `m_freeBlockStart` are kept under their source names. -/
structure DescriptorPool where
  m_count : ℕ
  m_freeIndices : Finset ℕ
  m_freeBlockStart : ℕ
deriving DecidableEq

/-- `DescriptorPool::Alloc` (src/d3d12_descriptor_pool.cpp:52-67).
If the free set is empty the source increments `m_freeBlockStart`,
throws "Descriptor pool exhausted" when the incremented value is
`>= m_count` (embedded as result `none`, with the increment already
applied, as in the source), and otherwise returns
`m_freeBlockStart - 1`.  If the free set is non-empty it removes and
returns `*m_freeIndices.begin()`, the smallest element. -/
def DescriptorPool.Alloc (p : DescriptorPool) : Option ℕ × DescriptorPool :=
  if h : p.m_freeIndices.Nonempty then
    let handle := p.m_freeIndices.min' h
    (some handle, { p with m_freeIndices := p.m_freeIndices.erase handle })
  else
    let fbs := u32succ p.m_freeBlockStart
    if p.m_count ≤ fbs then
      (none, { p with m_freeBlockStart := fbs })
    else
      (some (u32pred fbs), { p with m_freeBlockStart := fbs })

/-- The compaction loop of `DescriptorPool::Free`
(src/d3d12_descriptor_pool.cpp:71-74): while the free set is non-empty
and its largest element (`*m_freeIndices.rbegin()`) equals
`m_freeBlockStart - 1`, erase that element and decrement
`m_freeBlockStart`.  The loop erases one element per iteration, so it
runs at most `m_freeIndices.card` times; the recursion is phrased with
that explicit fuel (supplied by `FreeLoop` below) to keep the
definition computable by structural recursion. -/
def DescriptorPool.FreeLoopFuel : ℕ → DescriptorPool → DescriptorPool
  | 0, p => p
  | fuel + 1, p =>
    if h : p.m_freeIndices.Nonempty then
      if p.m_freeIndices.max' h = u32pred p.m_freeBlockStart then
        DescriptorPool.FreeLoopFuel fuel
          { p with m_freeIndices := p.m_freeIndices.erase (p.m_freeIndices.max' h)
                   m_freeBlockStart := u32pred p.m_freeBlockStart }
      else p
    else p

/-- The compaction loop of `DescriptorPool::Free` with sufficient fuel. -/
def DescriptorPool.FreeLoop (p : DescriptorPool) : DescriptorPool :=
  DescriptorPool.FreeLoopFuel p.m_freeIndices.card p

/-- `DescriptorPool::Free(Handle)` (src/d3d12_descriptor_pool.cpp:69-76):
insert the handle into the free set, then run the compaction loop. -/
def DescriptorPool.Free (p : DescriptorPool) (handle : ℕ) : DescriptorPool :=
  DescriptorPool.FreeLoop { p with m_freeIndices := insert handle p.m_freeIndices }

/-- A single client operation on a `DescriptorPool`. -/
inductive PoolOp where
  | alloc : PoolOp
  | free : ℕ → PoolOp
deriving DecidableEq

/-- A pool together with the list of live (issued and not yet freed)
handles and the exception flag.  `halted = true` records that an `Alloc`
has thrown `std::runtime_error("Descriptor pool exhausted")`; a thrown
exception aborts the rest of a straight-line call sequence, so every
later operation is a no-op. -/
structure PoolRun where
  pool : DescriptorPool
  live : List ℕ
  halted : Bool
deriving DecidableEq

/-- A freshly constructed pool of capacity `n`
(`m_freeIndices` empty, `m_freeBlockStart = 0`). -/
def initPool (n : ℕ) : PoolRun :=
  { pool := { m_count := n, m_freeIndices := ∅, m_freeBlockStart := 0 }
    live := []
    halted := false }

/-- One client operation against the pool, tracking live handles. -/
def PoolRun.step (r : PoolRun) (op : PoolOp) : PoolRun :=
  if r.halted then r
  else
    match op with
    | .alloc =>
      match r.pool.Alloc with
      | (some h, p') => { pool := p', live := r.live ++ [h], halted := false }
      | (none, p') => { pool := p', live := r.live, halted := true }
    | .free h => { pool := r.pool.Free h, live := r.live.erase h, halted := false }

/-- Run a sequence of client operations against a fresh pool of capacity `n`. -/
def runPool (n : ℕ) (ops : List PoolOp) : PoolRun :=
  ops.foldl PoolRun.step (initPool n)

/-- `poolWF r ops` holds when, along the execution of `ops` from `r`,
every `free` targets a handle that is live at that point (the
hypothesis of the spec's handle-uniqueness property). -/
def poolWF (r : PoolRun) : List PoolOp → Bool
  | [] => true
  | op :: rest =>
    (r.halted ||
      match op with
      | .alloc => true
      | .free h => r.live.contains h) && poolWF (r.step op) rest

/-- The inductive invariant of a pool run: the pool's capacity stays `n`,
live handles are pairwise distinct and in `[0, n)`, and while no
exception has been thrown the free set and the live handles all lie
below `m_freeBlockStart`, are disjoint, and the boundary satisfies
`m_freeBlockStart + 1 ≤ max n 1`. -/
def PoolInv (n : ℕ) (r : PoolRun) : Prop :=
  r.pool.m_count = n ∧
  r.live.Nodup ∧
  (∀ h ∈ r.live, h < n) ∧
  (r.halted = false →
    r.pool.m_freeBlockStart + 1 ≤ max n 1 ∧
    (∀ x ∈ r.pool.m_freeIndices, x < r.pool.m_freeBlockStart) ∧
    (∀ h ∈ r.live, h < r.pool.m_freeBlockStart) ∧
    (∀ x ∈ r.pool.m_freeIndices, x ∉ r.live))

/-! ## The GPU upload scheduler (src/d3d12_upload.cpp) -/

/-- A `GpuUploaderTask` subclass as a resource manager submits it
(src/d3d12_upload.hpp:13-32): `id` identifies the task and
`executeResult` is the `okami::Error` its `Execute` override returns
(`none` embeds the default success value `std::monostate`, `some msg`
an error message). -/
structure GpuUploaderTask where
  id : ℕ
  executeResult : Option String
deriving DecidableEq

/-- `GpuUploaderTask::Execute` as invoked by the worker: the override
runs and reports its `Error` return value. -/
def GpuUploaderTask.Execute (t : GpuUploaderTask) : Option String := t.executeResult

/-- A task object as the scheduler holds it after the worker touched it:
`m_fenceValue` as stamped by `ThreadFunc`, and the private `m_result`
field that `GetError` reads (default-constructed to the success value
`none`; only `GpuUploaderImpl`, a friend, could write it). -/
structure TaskRecord where
  task : GpuUploaderTask
  m_fenceValue : ℕ
  m_result : Option String
deriving DecidableEq

/-- The worker's treatment of one dequeued task
(src/d3d12_upload.cpp:138-141): `task->m_fenceValue = fenceValue;
task->Execute(device, commandList);` — the `Error` that `Execute`
returns is discarded (never assigned to `m_result`), after which the
task is pushed onto `m_tasksNeedFinalize`. -/
def threadExecuteTask (fenceValue : ℕ) (t : GpuUploaderTask) : TaskRecord :=
  let _ := t.Execute
  { task := t, m_fenceValue := fenceValue, m_result := none }

/-- The state of `GpuUploaderImpl` (src/d3d12_upload.cpp:11-35), plus
observation logs.  Queues are lists in FIFO order (head = front);
`m_batchFences` holds the `m_fenceValue` of each `Batch` in `m_batches`
(the command allocator/list objects play no part in the scheduling
logic); `completedFence` models `m_fence->GetCompletedValue()`;
`executedLog` records each `Execute` call's task id and returned error
in execution order; `finalizedLog` records each finalized task together
with the completed-fence value at its finalize step; `readAccessLog`
records the raw vector index used by each successful
`GetExecutableCommandListIfAny` (`m_batches[m_currentReadIndex]`, with
no modulo, exactly as in the source at src/d3d12_upload.cpp:88). -/
structure UploaderState where
  m_taskQueue : List GpuUploaderTask
  m_tasksNeedFinalize : List TaskRecord
  m_tasksOnGpu : List TaskRecord
  m_batchFences : List (Option ℕ)
  m_currentWriteIndex : ℕ
  m_currentReadIndex : ℕ
  completedFence : ℕ
  executedLog : List (ℕ × Option String)
  finalizedLog : List (TaskRecord × ℕ)
  readAccessLog : List ℕ
deriving DecidableEq

/-- The scheduler right after `GpuUploaderImpl::Create`
(src/d3d12_upload.cpp:40-80): `BATCH_COUNT = 2` batches with no fence
value yet, indices and fence counter at 0, queues empty. -/
def initUploader : UploaderState :=
  { m_taskQueue := []
    m_tasksNeedFinalize := []
    m_tasksOnGpu := []
    m_batchFences := [none, none]
    m_currentWriteIndex := 0
    m_currentReadIndex := 0
    completedFence := 0
    executedLog := []
    finalizedLog := []
    readAccessLog := [] }

/-- `GpuUploaderImpl::GetBatch` (src/d3d12_upload.cpp:82-84): index into
the batch ring modulo its size. -/
def getBatchIndex (s : UploaderState) (index : ℕ) : ℕ :=
  index % s.m_batchFences.length

/-- The batch-rollover decision of the worker loop
(src/d3d12_upload.cpp:143-157): do not roll when the next ring slot has
a fence value `<` the completed fence counter, nor when the consumer has
not yet caught up with the batch being recorded
(`m_currentReadIndex < currentIndex`); otherwise roll. -/
def moveToNextBatch (s : UploaderState) : Bool :=
  let next := s.m_batchFences.getD (getBatchIndex s (s.m_currentWriteIndex + 1)) none
  if (match next with
      | some v => decide (v < s.completedFence)
      | none => false) then false
  else if s.m_currentReadIndex < s.m_currentWriteIndex then false
  else true

/-- The finalize loop of `FetchAndFinalizeTasks`
(src/d3d12_upload.cpp:203-208): pop and finalize tasks from the front of
`m_tasksOnGpu` while the front task's `m_fenceValue` is `<=` the
completed fence; stop at the first task whose fence has not completed.
Returns (finalized prefix, remaining queue). -/
def finalizeLoop (completed : ℕ) : List TaskRecord → List TaskRecord × List TaskRecord
  | [] => ([], [])
  | r :: rest =>
    if r.m_fenceValue ≤ completed then
      let out := finalizeLoop completed rest
      (r :: out.1, out.2)
    else ([], r :: rest)

/-- `GpuUploaderImpl::FetchAndFinalizeTasks` (src/d3d12_upload.cpp:
198-212): drain `m_tasksNeedFinalize` into the FIFO `m_tasksOnGpu`, run
the finalize loop from the front, and return the number of tasks still
on the GPU. -/
def FetchAndFinalizeTasks (s : UploaderState) : UploaderState × ℕ :=
  let q := s.m_tasksOnGpu ++ s.m_tasksNeedFinalize
  let out := finalizeLoop s.completedFence q
  ({ s with m_tasksNeedFinalize := []
            m_tasksOnGpu := out.2
            finalizedLog := s.finalizedLog ++ out.1.map (fun r => (r, s.completedFence)) },
   out.2.length)

/-- One transition of the interleaved scheduler: a producer submits a
task, the worker executes the front task or rolls the batch, the device
raises the completed-fence counter, or the main thread polls
(`GetExecutableCommandListIfAny` / `FetchAndFinalizeTasks`). -/
inductive UploaderOp where
  | submit : GpuUploaderTask → UploaderOp
  | workerExecute : UploaderOp
  | workerRollover : UploaderOp
  | signalFence : ℕ → UploaderOp
  | consume : UploaderOp
  | finalize : UploaderOp
deriving DecidableEq

/-- The interleaved small-step semantics of `GpuUploaderImpl`:
* `submit t` — `SubmitTask` enqueues on the multi-producer queue;
* `workerExecute` — `ThreadFunc` dequeues a task, stamps
  `m_fenceValue = currentIndex + 1`, calls `Execute` (discarding its
  result) and pushes the task onto `m_tasksNeedFinalize`
  (src/d3d12_upload.cpp:136-141); a no-op when the queue is empty
  (the worker blocks on its condition variable);
* `workerRollover` — when `moveToNextBatch` holds, `ThreadFunc` closes
  the current batch, stamps its fence value `currentIndex + 1` and
  advances the write index (src/d3d12_upload.cpp:160-167);
* `signalFence v` — the device completes submitted work; the completed
  counter only ever increases;
* `consume` — `GetExecutableCommandListIfAny`
  (src/d3d12_upload.cpp:86-100): when `m_currentReadIndex <
  m_currentWriteIndex`, read `m_batches[m_currentReadIndex]` (the raw,
  un-moduloed index, recorded in `readAccessLog`) and advance the read
  index;
* `finalize` — `FetchAndFinalizeTasks` on the main thread. -/
def UploaderState.step (s : UploaderState) (op : UploaderOp) : UploaderState :=
  match op with
  | .submit t => { s with m_taskQueue := s.m_taskQueue ++ [t] }
  | .workerExecute =>
    match s.m_taskQueue with
    | [] => s
    | t :: rest =>
      { s with m_taskQueue := rest
               m_tasksNeedFinalize :=
                 s.m_tasksNeedFinalize ++ [threadExecuteTask (s.m_currentWriteIndex + 1) t]
               executedLog := s.executedLog ++ [(t.id, t.Execute)] }
  | .workerRollover =>
    if moveToNextBatch s then
      { s with m_batchFences :=
                 s.m_batchFences.set (getBatchIndex s s.m_currentWriteIndex)
                   (some (s.m_currentWriteIndex + 1))
               m_currentWriteIndex := s.m_currentWriteIndex + 1 }
    else s
  | .signalFence v => { s with completedFence := max s.completedFence v }
  | .consume =>
    if s.m_currentReadIndex < s.m_currentWriteIndex then
      { s with readAccessLog := s.readAccessLog ++ [s.m_currentReadIndex]
               m_currentReadIndex := s.m_currentReadIndex + 1 }
    else s
  | .finalize => (FetchAndFinalizeTasks s).1

/-- Run a sequence of interleaved scheduler transitions from the
freshly created scheduler. -/
def runUploader (ops : List UploaderOp) : UploaderState :=
  ops.foldl UploaderState.step initUploader

/-- The inductive invariant of the scheduler: every task sitting in the
finalize pipeline (`m_tasksNeedFinalize` or `m_tasksOnGpu`) has already
had its `Execute` run to completion (its id is in the execution log),
and every finalized task was finalized at a step whose completed-fence
counter (recorded alongside it) had reached the task's stamped
`m_fenceValue`, after its `Execute` had returned; the completed-fence
counter only ever grows past each recorded finalize step. -/
def UploaderInv (s : UploaderState) : Prop :=
  (∀ r ∈ s.m_tasksNeedFinalize ++ s.m_tasksOnGpu,
    r.task.id ∈ s.executedLog.map Prod.fst) ∧
  (∀ q ∈ s.finalizedLog,
    q.1.m_fenceValue ≤ q.2 ∧ q.2 ≤ s.completedFence ∧
    q.1.task.id ∈ s.executedLog.map Prod.fst)

/-- The concrete interleaving used to exercise
`GetExecutableCommandListIfAny`: three tasks, each executed into its own
batch with the worker rolling over after each one and the consumer
polling after each rollover. -/
def consumeTrace : List UploaderOp :=
  [.submit ⟨1, none⟩, .workerExecute, .workerRollover, .consume,
   .submit ⟨2, none⟩, .workerExecute, .workerRollover, .consume,
   .submit ⟨3, none⟩, .workerExecute, .workerRollover, .consume]

/-! ## The capacity estimator (src/d3d12_common.hpp) -/

/-- `okami::Sizer` (src/d3d12_common.hpp:148-180).  The C++ `double`
fields `m_weightedSize`, `m_sizeDecay`, `m_expandFactor` are embedded
as rationals; `m_currentSize : size_t` as `ℕ`. -/
structure Sizer where
  m_weightedSize : ℚ
  m_sizeDecay : ℚ
  m_expandFactor : ℚ
  m_currentSize : ℕ
deriving DecidableEq

/-- `Sizer::Reset` (src/d3d12_common.hpp:155-159): commit `size` as the
current size and restart the weighted average from it. -/
def Sizer.Reset (s : Sizer) (size : ℕ) : ℕ × Sizer :=
  (size, { s with m_currentSize := size, m_weightedSize := (size : ℚ) })

/-- `Sizer::GetNextSize` (src/d3d12_common.hpp:161-175): update the
weighted average, then grow when `requestedSize >= m_currentSize`,
shrink when the weighted average falls to or below
`m_currentSize / m_expandFactor²`, otherwise signal no change.  The C++
`static_cast<size_t>(m_weightedSize * m_expandFactor)` (truncation of a
nonnegative `double`) is embedded as `Int.toNat ∘ Int.floor`. -/
def Sizer.GetNextSize (s : Sizer) (requestedSize : ℕ) : Option ℕ × Sizer :=
  let w := (1 - s.m_sizeDecay) * (requestedSize : ℚ) + s.m_weightedSize * s.m_sizeDecay
  let s1 : Sizer := { s with m_weightedSize := w }
  if s1.m_currentSize ≤ requestedSize then
    let out := s1.Reset (⌊w * s1.m_expandFactor⌋.toNat)
    (some out.1, out.2)
  else if w ≤ (s1.m_currentSize : ℚ) / (s1.m_expandFactor * s1.m_expandFactor) then
    let out := s1.Reset (⌊w * s1.m_expandFactor⌋.toNat)
    (some out.1, out.2)
  else (none, s1)

/-- Modelled from the spec: the capacity estimator with a minimum floor.
The repository's texture manager (src/d3d12_texture.cpp:150) assigns
`m_sizer.m_minSize = kMinPoolSize`, but the `Sizer` in
src/d3d12_common.hpp has no `m_minSize` member: the floor-bearing
revision of `Sizer` is not present under src/, only this caller of it.
Following the spec's words, the estimator "Shrinks, under the same
reset rule, only when `weighted <= currentSize / expandFactor²` and the
resulting size would stay at or above a configured floor; otherwise no
change", growing exactly as the `Sizer` in src/ does. -/
structure SizerWithFloor where
  m_weightedSize : ℚ
  m_sizeDecay : ℚ
  m_expandFactor : ℚ
  m_currentSize : ℕ
  m_minSize : ℕ
deriving DecidableEq

/-- Modelled from the spec: `Reset` of the floor-bearing estimator,
identical to `Sizer::Reset`. -/
def SizerWithFloor.Reset (s : SizerWithFloor) (size : ℕ) : ℕ × SizerWithFloor :=
  (size, { s with m_currentSize := size, m_weightedSize := (size : ℚ) })

/-- Modelled from the spec: `GetNextSize` of the floor-bearing
estimator.  The update of the weighted average and the grow branch
follow `Sizer::GetNextSize` from src/d3d12_common.hpp; the shrink
branch additionally requires the resulting size
`weighted * expandFactor` to stay at or above `m_minSize`. -/
def SizerWithFloor.GetNextSize (s : SizerWithFloor) (requestedSize : ℕ) :
    Option ℕ × SizerWithFloor :=
  let w := (1 - s.m_sizeDecay) * (requestedSize : ℚ) + s.m_weightedSize * s.m_sizeDecay
  let s1 : SizerWithFloor := { s with m_weightedSize := w }
  if s1.m_currentSize ≤ requestedSize then
    let out := s1.Reset (⌊w * s1.m_expandFactor⌋.toNat)
    (some out.1, out.2)
  else if w ≤ (s1.m_currentSize : ℚ) / (s1.m_expandFactor * s1.m_expandFactor) ∧
      s1.m_minSize ≤ ⌊w * s1.m_expandFactor⌋.toNat then
    let out := s1.Reset (⌊w * s1.m_expandFactor⌋.toNat)
    (some out.1, out.2)
  else (none, s1)

/-! ## Basic arithmetic facts -/

theorem U32MOD_eq : U32MOD = 4294967296 := by norm_num [U32MOD]

theorem u32succ_eq (x : ℕ) (h : x + 1 < U32MOD) : u32succ x = x + 1 := by
  simpa [u32succ] using Nat.mod_eq_of_lt h

theorem u32pred_eq (x : ℕ) (h1 : 1 ≤ x) (h2 : x < U32MOD) : u32pred x = x - 1 := by
  unfold u32pred U32MOD at *
  omega

/-! ## The descriptor-pool compaction loop -/

/-- Specification of the `Free` compaction loop (any sufficient fuel):
running it on a pool whose free set lies below `m_freeBlockStart`
preserves that containment, can only lower `m_freeBlockStart`, keeps
every list `L` of indices that lay below the boundary and was disjoint
from the free set below the new boundary and disjoint, and leaves no
free-set element adjacent to the boundary
(`x + 1 = m_freeBlockStart` for no free `x`). -/
theorem FreeLoopFuel_spec :
    ∀ (fuel : ℕ) (p : DescriptorPool) (L : List ℕ),
      p.m_freeIndices.card ≤ fuel →
      p.m_freeBlockStart < U32MOD →
      (∀ x ∈ p.m_freeIndices, x < p.m_freeBlockStart) →
      (∀ x ∈ L, x < p.m_freeBlockStart) →
      (∀ x ∈ p.m_freeIndices, x ∉ L) →
      (DescriptorPool.FreeLoopFuel fuel p).m_count = p.m_count ∧
      (DescriptorPool.FreeLoopFuel fuel p).m_freeBlockStart ≤ p.m_freeBlockStart ∧
      (∀ x ∈ (DescriptorPool.FreeLoopFuel fuel p).m_freeIndices,
        x < (DescriptorPool.FreeLoopFuel fuel p).m_freeBlockStart) ∧
      (∀ x ∈ L, x < (DescriptorPool.FreeLoopFuel fuel p).m_freeBlockStart) ∧
      (∀ x ∈ (DescriptorPool.FreeLoopFuel fuel p).m_freeIndices, x ∉ L) ∧
      (∀ x ∈ (DescriptorPool.FreeLoopFuel fuel p).m_freeIndices,
        x + 1 ≠ (DescriptorPool.FreeLoopFuel fuel p).m_freeBlockStart) := by
  intro fuel
  induction fuel with
  | zero =>
    intro p L hcard hfbs hS hL hD
    have hempty : p.m_freeIndices = ∅ :=
      Finset.card_eq_zero.mp (Nat.le_antisymm hcard (Nat.zero_le _))
    simp only [DescriptorPool.FreeLoopFuel]
    refine ⟨by simp, by simp, hS, hL, hD, ?_⟩
    intro x hx
    rw [hempty] at hx
    simp at hx
  | succ fuel ih =>
    intro p L hcard hfbs hS hL hD
    simp only [DescriptorPool.FreeLoopFuel]
    by_cases h : p.m_freeIndices.Nonempty
    · simp only [dif_pos h]
      by_cases heq : p.m_freeIndices.max' h = u32pred p.m_freeBlockStart
      · simp only [if_pos heq]
        have hmax : p.m_freeIndices.max' h ∈ p.m_freeIndices := p.m_freeIndices.max'_mem h
        have hfbs1 : 1 ≤ p.m_freeBlockStart := Nat.one_le_iff_ne_zero.mpr (by
          intro h0
          have := hS _ hmax
          omega)
        have hpred : u32pred p.m_freeBlockStart = p.m_freeBlockStart - 1 :=
          u32pred_eq _ hfbs1 hfbs
        have hmaxval : p.m_freeIndices.max' h = p.m_freeBlockStart - 1 := by rw [heq, hpred]
        have hres := ih
          { p with m_freeIndices := p.m_freeIndices.erase (p.m_freeIndices.max' h)
                   m_freeBlockStart := u32pred p.m_freeBlockStart }
          L
          (by
            simp only [Finset.card_erase_of_mem hmax]
            omega)
          (by simp only [hpred]; omega)
          (by
            intro x hx
            simp only [hpred]
            have hx' := Finset.mem_of_mem_erase hx
            have hne := Finset.ne_of_mem_erase hx
            have := hS x hx'
            have hle := p.m_freeIndices.le_max' x hx'
            omega)
          (by
            intro x hx
            simp only [hpred]
            have hxlt := hL x hx
            have hxne : x ≠ p.m_freeBlockStart - 1 := by
              intro hcontra
              apply hD x _ hx
              have : x = p.m_freeIndices.max' h := by omega
              rw [this]
              exact hmax
            omega)
          (by
            intro x hx
            exact hD x (Finset.mem_of_mem_erase hx))
        refine ⟨hres.1, ?_, hres.2.2.1, hres.2.2.2.1, hres.2.2.2.2.1, hres.2.2.2.2.2⟩
        have := hres.2.1
        simp only [hpred] at this ⊢
        omega
      · simp only [if_neg heq]
        refine ⟨by simp, by simp, hS, hL, hD, ?_⟩
        intro x hx hcontra
        have hx1 : 1 ≤ p.m_freeBlockStart := by omega
        have hpred : u32pred p.m_freeBlockStart = p.m_freeBlockStart - 1 :=
          u32pred_eq _ hx1 hfbs
        have hxval : x = p.m_freeBlockStart - 1 := by omega
        have hle := p.m_freeIndices.le_max' x hx
        have hmlt := hS _ (p.m_freeIndices.max'_mem h)
        have : p.m_freeIndices.max' h = p.m_freeBlockStart - 1 := by omega
        exact heq (by rw [this, hpred])
    · simp only [dif_neg h]
      have hempty : p.m_freeIndices = ∅ := Finset.not_nonempty_iff_eq_empty.mp h
      refine ⟨by simp, by simp, hS, hL, hD, ?_⟩
      intro x hx
      rw [hempty] at hx
      simp at hx

/-- `FreeLoopFuel_spec` at the fuel `FreeLoop` supplies. -/
theorem FreeLoop_spec (p : DescriptorPool) (L : List ℕ)
    (hfbs : p.m_freeBlockStart < U32MOD)
    (hS : ∀ x ∈ p.m_freeIndices, x < p.m_freeBlockStart)
    (hL : ∀ x ∈ L, x < p.m_freeBlockStart)
    (hD : ∀ x ∈ p.m_freeIndices, x ∉ L) :
    (p.FreeLoop).m_count = p.m_count ∧
    (p.FreeLoop).m_freeBlockStart ≤ p.m_freeBlockStart ∧
    (∀ x ∈ (p.FreeLoop).m_freeIndices, x < (p.FreeLoop).m_freeBlockStart) ∧
    (∀ x ∈ L, x < (p.FreeLoop).m_freeBlockStart) ∧
    (∀ x ∈ (p.FreeLoop).m_freeIndices, x ∉ L) ∧
    (∀ x ∈ (p.FreeLoop).m_freeIndices, x + 1 ≠ (p.FreeLoop).m_freeBlockStart) :=
  FreeLoopFuel_spec p.m_freeIndices.card p L (le_refl _) hfbs hS hL hD

/-! ## Handle uniqueness (C5) -/

theorem PoolInv_step (n : ℕ) (hn : n < U32MOD) (r : PoolRun) (op : PoolOp)
    (hInv : PoolInv n r)
    (hok : (r.halted ||
      match op with
      | .alloc => true
      | .free h => r.live.contains h) = true) :
    PoolInv n (r.step op) := by
  obtain ⟨hcount, hnodup, hlt, hrest⟩ := hInv
  have hU := U32MOD_eq
  by_cases hh : r.halted
  · simp only [PoolRun.step, hh, if_true]
    exact ⟨hcount, hnodup, hlt, hrest⟩
  · simp only [Bool.not_eq_true] at hh
    obtain ⟨hbound, hSlt, hLlt, hdisj⟩ := hrest hh
    cases op with
    | alloc =>
      simp only [PoolRun.step, hh, Bool.false_eq_true, if_false]
      unfold DescriptorPool.Alloc
      by_cases hne : r.pool.m_freeIndices.Nonempty
      · simp only [dif_pos hne]
        have hmem := r.pool.m_freeIndices.min'_mem hne
        have hmlt := hSlt _ hmem
        have hmnotlive := hdisj _ hmem
        refine ⟨hcount, ?_, ?_, ?_⟩
        · simp [List.nodup_append, hnodup, hmnotlive]
        · intro x hx
          rcases List.mem_append.mp hx with hx | hx
          · exact hlt x hx
          · simp only [List.mem_singleton] at hx
            subst hx
            omega
        · intro _
          refine ⟨hbound, ?_, ?_, ?_⟩
          · intro x hx
            exact hSlt x (Finset.mem_of_mem_erase hx)
          · intro x hx
            rcases List.mem_append.mp hx with hx | hx
            · exact hLlt x hx
            · simp only [List.mem_singleton] at hx
              subst hx
              exact hmlt
          · intro x hx
            have hxS := Finset.mem_of_mem_erase hx
            have hxne := Finset.ne_of_mem_erase hx
            simp only [List.mem_append, List.mem_singleton]
            push_neg
            exact ⟨hdisj x hxS, hxne⟩
      · simp only [dif_neg hne]
        have hempty : r.pool.m_freeIndices = ∅ := Finset.not_nonempty_iff_eq_empty.mp hne
        have hsucc : u32succ r.pool.m_freeBlockStart = r.pool.m_freeBlockStart + 1 := by
          apply u32succ_eq
          omega
        by_cases hcap : r.pool.m_count ≤ u32succ r.pool.m_freeBlockStart
        · simp only [if_pos hcap]
          exact ⟨hcount, hnodup, hlt, by intro hc; simp at hc⟩
        · simp only [if_neg hcap]
          rw [hsucc] at hcap
          have hfbslt : r.pool.m_freeBlockStart + 1 < n := by omega
          have hpred : u32pred (r.pool.m_freeBlockStart + 1) = r.pool.m_freeBlockStart := by
            rw [u32pred_eq _ (by omega) (by omega)]
            omega
          simp only [hsucc, hpred]
          have hnotlive : r.pool.m_freeBlockStart ∉ r.live := by
            intro hmem
            exact absurd (hLlt _ hmem) (by omega)
          refine ⟨hcount, ?_, ?_, ?_⟩
          · simp [List.nodup_append, hnodup, hnotlive]
          · intro x hx
            rcases List.mem_append.mp hx with hx | hx
            · exact hlt x hx
            · simp only [List.mem_singleton] at hx
              subst hx
              omega
          · intro _
            refine ⟨by simp only; omega, ?_, ?_, ?_⟩
            · intro x hx
              rw [hempty] at hx
              simp at hx
            · intro x hx
              rcases List.mem_append.mp hx with hx | hx
              · have := hLlt x hx
                simp only
                omega
              · simp only [List.mem_singleton] at hx
                simp only
                omega
            · intro x hx
              rw [hempty] at hx
              simp at hx
    | free h =>
      simp only [PoolRun.step, hh, Bool.false_eq_true, if_false]
      simp only [hh, Bool.false_or] at hok
      have hlive : h ∈ r.live := by simpa using hok
      have hhlt := hLlt h hlive
      have hspec := FreeLoop_spec
        { m_count := r.pool.m_count
          m_freeIndices := insert h r.pool.m_freeIndices
          m_freeBlockStart := r.pool.m_freeBlockStart }
        (r.live.erase h)
        (by simp only; omega)
        (by
          intro x hx
          simp only [Finset.mem_insert] at hx
          rcases hx with hx | hx
          · subst hx; exact hhlt
          · exact hSlt x hx)
        (by
          intro x hx
          exact hLlt x (List.mem_of_mem_erase hx))
        (by
          intro x hx
          simp only [Finset.mem_insert] at hx
          rcases hx with hx | hx
          · subst hx
            exact hnodup.not_mem_erase
          · intro hmem
            exact hdisj x hx (List.mem_of_mem_erase hmem))
      obtain ⟨hc, hle, hS2, hL2, hD2, _⟩ := hspec
      refine ⟨by rw [DescriptorPool.Free]; rw [hc]; exact hcount, hnodup.erase h, ?_, ?_⟩
      · intro x hx
        exact hlt x (List.mem_of_mem_erase hx)
      · intro _
        exact ⟨by rw [DescriptorPool.Free]; simp only at hle ⊢; omega,
          by rw [DescriptorPool.Free]; exact hS2,
          by rw [DescriptorPool.Free]; exact hL2,
          by rw [DescriptorPool.Free]; exact hD2⟩

theorem runPool_inv (n : ℕ) (hn : n < U32MOD) :
    ∀ (ops : List PoolOp) (r : PoolRun),
      PoolInv n r → poolWF r ops = true →
      PoolInv n (ops.foldl PoolRun.step r) := by
  intro ops
  induction ops with
  | nil =>
    intro r h _
    simpa using h
  | cons op rest ih =>
    intro r hInv hwf
    simp only [poolWF, Bool.and_eq_true] at hwf
    exact ih _ (PoolInv_step n hn r op hInv hwf.1) hwf.2

theorem initPool_inv (n : ℕ) : PoolInv n (initPool n) := by
  refine ⟨rfl, List.nodup_nil, by simp [initPool], ?_⟩
  intro _
  refine ⟨by simp [initPool], ?_, ?_, ?_⟩ <;> simp [initPool]

/-- C5: for every sequence of `Alloc`/`Free` operations on a pool of
capacity `n` (with `n` in `uint32_t` range) in which `Free` is only
ever called on a currently-live handle, the live handles are pairwise
distinct and all lie in `[0, n)` — in particular no handle is ever
issued twice while still live. -/
theorem pool_handle_uniqueness (n : ℕ) (ops : List PoolOp)
    (hn : n < U32MOD) (hwf : poolWF (initPool n) ops = true) :
    (runPool n ops).live.Nodup ∧ ∀ h ∈ (runPool n ops).live, h < n := by
  have h := runPool_inv n hn ops (initPool n) (initPool_inv n) hwf
  exact ⟨h.2.1, h.2.2.1⟩

theorem pool_handle_uniqueness_witness :
    (4 < U32MOD ∧ poolWF (initPool 4) [.alloc, .alloc, .free 0, .alloc, .free 1] = true) ∧
    ((runPool 4 [.alloc, .alloc, .free 0, .alloc, .free 1]).live.Nodup ∧
      ∀ h ∈ (runPool 4 [.alloc, .alloc, .free 0, .alloc, .free 1]).live, h < 4) :=
  ⟨⟨by decide, by decide⟩,
    pool_handle_uniqueness 4 [.alloc, .alloc, .free 0, .alloc, .free 1]
      (by decide) (by decide)⟩

/-- C6: `Free(handle)` inserts the handle into the free set and runs the
compaction loop (repeatedly removing the largest free element while it
equals `m_freeBlockStart - 1` and decrementing `m_freeBlockStart`);
afterwards no element of the free set equals `m_freeBlockStart - 1`
(stated as `x + 1 ≠ m_freeBlockStart`) and every element lies strictly
below `m_freeBlockStart`.  Hypotheses: the pool is in a state reachable
by proper use — the free set lies below the boundary, the boundary is a
`uint32_t` value, and the freed handle lay below the boundary (it was
live). -/
theorem free_compaction (p : DescriptorPool) (handle : ℕ)
    (hfbs : p.m_freeBlockStart < U32MOD)
    (hS : ∀ x ∈ p.m_freeIndices, x < p.m_freeBlockStart)
    (hh : handle < p.m_freeBlockStart) :
    ∀ x ∈ (p.Free handle).m_freeIndices,
      x < (p.Free handle).m_freeBlockStart ∧
      x + 1 ≠ (p.Free handle).m_freeBlockStart := by
  have hspec := FreeLoop_spec
    { m_count := p.m_count
      m_freeIndices := insert handle p.m_freeIndices
      m_freeBlockStart := p.m_freeBlockStart }
    []
    (by simpa using hfbs)
    (by
      intro x hx
      simp only [Finset.mem_insert] at hx
      rcases hx with hx | hx
      · subst hx; exact hh
      · exact hS x hx)
    (by intro x hx; simp at hx)
    (by intro x hx; simp)
  intro x hx
  rw [DescriptorPool.Free] at hx ⊢
  exact ⟨hspec.2.2.1 x hx, hspec.2.2.2.2.2 x hx⟩

theorem free_compaction_witness :
    ((DescriptorPool.mk 5 {1} 4).m_freeBlockStart < U32MOD ∧
      (∀ x ∈ (DescriptorPool.mk 5 {1} 4).m_freeIndices,
        x < (DescriptorPool.mk 5 {1} 4).m_freeBlockStart) ∧
      3 < (DescriptorPool.mk 5 {1} 4).m_freeBlockStart) ∧
    (∀ x ∈ ((DescriptorPool.mk 5 {1} 4).Free 3).m_freeIndices,
      x < ((DescriptorPool.mk 5 {1} 4).Free 3).m_freeBlockStart ∧
      x + 1 ≠ ((DescriptorPool.mk 5 {1} 4).Free 3).m_freeBlockStart) :=
  ⟨⟨by decide, by decide, by decide⟩,
    free_compaction (DescriptorPool.mk 5 {1} 4) 3
      (by decide) (by decide) (by decide)⟩

/-- C1: the claim fails on the code.  `DescriptorPool::Alloc` increments
`m_freeBlockStart` before comparing it against `m_count`, so a fresh
pool of capacity `N` serves only `N - 1` allocations: on a fresh pool of
capacity 1 the very first `Alloc` already throws "Descriptor pool
exhausted" (here: halts with no handle issued), and on a fresh pool of
capacity 4 the first three `Alloc`s return 0, 1, 2 and the fourth
throws — not, as the claim states, `N` successes returning `0 … N-1`
followed by exhaustion at the `(N+1)`-th call. -/
theorem fresh_pool_exhausts_one_early :
    ((initPool 1).step .alloc).halted = true ∧
    (runPool 4 [.alloc, .alloc, .alloc]).live = [0, 1, 2] ∧
    (runPool 4 [.alloc, .alloc, .alloc]).halted = false ∧
    (runPool 4 [.alloc, .alloc, .alloc, .alloc]).halted = true ∧
    (runPool 4 [.alloc, .alloc, .alloc, .alloc]).live = [0, 1, 2] := by
  decide

/-- C7: the spec's concrete scenario is impossible at capacity 4 — the
fourth `Alloc` on a fresh capacity-4 pool throws instead of returning 3
(the same off-by-one as C1), so "Alloc → 0,1,2,3" cannot happen.  On a
capacity-5 pool the rest of the scenario behaves exactly as claimed:
after Alloc → 0,1,2,3, Free(1), Free(3), compaction leaves the free set
`{1}` and `m_freeBlockStart = 3`, and the next `Alloc` reissues the
smallest freed index 1 while leaving `m_freeBlockStart` unchanged. -/
theorem alloc_reissue_scenario :
    (runPool 4 [.alloc, .alloc, .alloc, .alloc]).live ≠ [0, 1, 2, 3] ∧
    (runPool 5 [.alloc, .alloc, .alloc, .alloc]).live = [0, 1, 2, 3] ∧
    (runPool 5 [.alloc, .alloc, .alloc, .alloc, .free 1, .free 3]).pool.m_freeIndices = {1} ∧
    (runPool 5 [.alloc, .alloc, .alloc, .alloc, .free 1, .free 3]).pool.m_freeBlockStart = 3 ∧
    ((runPool 5 [.alloc, .alloc, .alloc, .alloc, .free 1, .free 3]).pool.Alloc).1 = some 1 ∧
    ((runPool 5 [.alloc, .alloc, .alloc, .alloc, .free 1, .free 3]).pool.Alloc).2.m_freeBlockStart
      = 3 := by
  decide

/-! ## The upload scheduler: finalize ordering and fence gating -/

theorem finalizeLoop_eq (completed : ℕ) (l : List TaskRecord) :
    finalizeLoop completed l =
      (l.takeWhile (fun r => r.m_fenceValue ≤ completed),
       l.dropWhile (fun r => r.m_fenceValue ≤ completed)) := by
  induction l with
  | nil => rfl
  | cons r rest ih =>
    by_cases h : r.m_fenceValue ≤ completed
    · simp [finalizeLoop, List.takeWhile, List.dropWhile, h, ih]
    · simp [finalizeLoop, List.takeWhile, List.dropWhile, h]

/-- C2: `FetchAndFinalizeTasks` drains the worker's awaiting-finalize
queue into the ordered FIFO `m_tasksOnGpu` (behind the tasks already
there) and finalizes tasks strictly in queue (= submission) order from
the front: with `q = m_tasksOnGpu ++ m_tasksNeedFinalize` and the
completed-fence counter `c`, the finalized tasks are exactly the
maximal prefix of `q` whose fence targets are `≤ c`, appended to the
finalize log in that order; the tasks still pending are the
corresponding suffix of `q` (so nothing is ever reordered:
finalized ++ pending = q); every finalized task's fence target has been
reached; the first pending task (if any) has a not-yet-complete fence;
and the returned count is the number of tasks still pending. -/
theorem fetchAndFinalizeTasks_spec (s : UploaderState) :
    (FetchAndFinalizeTasks s).1.m_tasksNeedFinalize = [] ∧
    (FetchAndFinalizeTasks s).1.finalizedLog =
      s.finalizedLog ++
        (((s.m_tasksOnGpu ++ s.m_tasksNeedFinalize).takeWhile
          (fun r => r.m_fenceValue ≤ s.completedFence)).map
            (fun r => (r, s.completedFence))) ∧
    (FetchAndFinalizeTasks s).1.m_tasksOnGpu =
      (s.m_tasksOnGpu ++ s.m_tasksNeedFinalize).dropWhile
        (fun r => r.m_fenceValue ≤ s.completedFence) ∧
    ((s.m_tasksOnGpu ++ s.m_tasksNeedFinalize).takeWhile
        (fun r => r.m_fenceValue ≤ s.completedFence)) ++
      (FetchAndFinalizeTasks s).1.m_tasksOnGpu =
        s.m_tasksOnGpu ++ s.m_tasksNeedFinalize ∧
    (∀ r ∈ (s.m_tasksOnGpu ++ s.m_tasksNeedFinalize).takeWhile
        (fun r => r.m_fenceValue ≤ s.completedFence),
      r.m_fenceValue ≤ s.completedFence) ∧
    (∀ r, ((FetchAndFinalizeTasks s).1.m_tasksOnGpu).head? = some r →
      s.completedFence < r.m_fenceValue) ∧
    (FetchAndFinalizeTasks s).2 = (FetchAndFinalizeTasks s).1.m_tasksOnGpu.length := by
  refine ⟨?_, ?_, ?_, ?_, ?_, ?_, ?_⟩
  · simp [FetchAndFinalizeTasks, finalizeLoop_eq]
  · simp [FetchAndFinalizeTasks, finalizeLoop_eq]
  · simp [FetchAndFinalizeTasks, finalizeLoop_eq]
  · simp only [FetchAndFinalizeTasks, finalizeLoop_eq]
    exact List.takeWhile_append_dropWhile _ _
  · intro r hr
    have := List.mem_takeWhile_imp hr
    simpa using this
  · intro r hr
    simp only [FetchAndFinalizeTasks, finalizeLoop_eq] at hr
    have h := List.head?_dropWhile_not
      (fun r => decide (r.m_fenceValue ≤ s.completedFence))
      (s.m_tasksOnGpu ++ s.m_tasksNeedFinalize)
    rw [hr] at h
    simpa using h
  · simp [FetchAndFinalizeTasks, finalizeLoop_eq]

theorem fetchAndFinalizeTasks_spec_witness :
    -- the spec's T1, T2, T3 scenario: submission order T1 T2 T3, fence
    -- completion order T2 (target 1), T1 (target 2), T3 (target 3).
    -- With the counter at 1 (only T2's fence done) nothing finalizes;
    -- at 2, T1 and then T2 finalize, in submission order; at 3, T3.
    (FetchAndFinalizeTasks
        (UploaderState.mk [] [⟨⟨1, none⟩, 2, none⟩, ⟨⟨2, none⟩, 1, none⟩, ⟨⟨3, none⟩, 3, none⟩]
          [] [none, none] 0 0 1 [] [] [])).1.finalizedLog = [] ∧
    (FetchAndFinalizeTasks
        (UploaderState.mk [] [⟨⟨1, none⟩, 2, none⟩, ⟨⟨2, none⟩, 1, none⟩, ⟨⟨3, none⟩, 3, none⟩]
          [] [none, none] 0 0 2 [] [] [])).1.finalizedLog =
      [(⟨⟨1, none⟩, 2, none⟩, 2), (⟨⟨2, none⟩, 1, none⟩, 2)] ∧
    ∀ r, (FetchAndFinalizeTasks
        (UploaderState.mk [] [⟨⟨1, none⟩, 2, none⟩, ⟨⟨2, none⟩, 1, none⟩, ⟨⟨3, none⟩, 3, none⟩]
          [] [none, none] 0 0 1 [] [] [])).1.m_tasksOnGpu.head? = some r →
      1 < r.m_fenceValue := by
  refine ⟨by decide, by decide, ?_⟩
  exact (fetchAndFinalizeTasks_spec
    (UploaderState.mk [] [⟨⟨1, none⟩, 2, none⟩, ⟨⟨2, none⟩, 1, none⟩, ⟨⟨3, none⟩, 3, none⟩]
      [] [none, none] 0 0 1 [] [] [])).2.2.2.2.2.1

theorem UploaderInv_step (s : UploaderState) (op : UploaderOp)
    (hInv : UploaderInv s) : UploaderInv (s.step op) := by
  obtain ⟨hqueue, hfin⟩ := hInv
  cases op with
  | submit t =>
    exact ⟨hqueue, hfin⟩
  | workerExecute =>
    cases hq : s.m_taskQueue with
    | nil => simpa [UploaderState.step, hq] using ⟨hqueue, hfin⟩
    | cons t rest =>
      simp only [UploaderState.step, hq]
      constructor
      · intro r hr
        simp only [threadExecuteTask, List.append_assoc, List.mem_append,
          List.mem_singleton] at hr
        simp only [List.map_append, List.mem_append]
        rcases hr with hr | hr | hr
        · exact Or.inl (hqueue r (List.mem_append_left _ hr))
        · subst hr
          simp
        · exact Or.inl (hqueue r (List.mem_append_right _ hr))
      · intro q hq2
        have h := hfin q hq2
        simp only [List.map_append, List.mem_append]
        exact ⟨h.1, h.2.1, Or.inl h.2.2⟩
  | workerRollover =>
    by_cases hmv : moveToNextBatch s
    · simpa [UploaderState.step, hmv] using ⟨hqueue, hfin⟩
    · simpa [UploaderState.step, hmv] using ⟨hqueue, hfin⟩
  | signalFence v =>
    refine ⟨hqueue, ?_⟩
    intro q hq2
    have h := hfin q hq2
    exact ⟨h.1, le_trans h.2.1 (le_max_left _ _), h.2.2⟩
  | consume =>
    by_cases hc : s.m_currentReadIndex < s.m_currentWriteIndex
    · simpa [UploaderState.step, hc] using ⟨hqueue, hfin⟩
    · simpa [UploaderState.step, hc] using ⟨hqueue, hfin⟩
  | finalize =>
    simp only [UploaderState.step, FetchAndFinalizeTasks, finalizeLoop_eq]
    constructor
    · intro r hr
      simp only [List.nil_append] at hr
      have : r ∈ s.m_tasksOnGpu ++ s.m_tasksNeedFinalize :=
        (List.dropWhile_sublist _).mem hr
      exact hqueue r (by
        rcases List.mem_append.mp this with h | h
        · exact List.mem_append_right _ h
        · exact List.mem_append_left _ h)
    · intro q hq2
      simp only [List.mem_append, List.mem_map] at hq2
      rcases hq2 with hq2 | ⟨r, hr, hrq⟩
      · exact hfin q hq2
      · subst hrq
        refine ⟨by simpa using List.mem_takeWhile_imp hr, le_refl _, ?_⟩
        have : r ∈ s.m_tasksOnGpu ++ s.m_tasksNeedFinalize :=
          (List.takeWhile_sublist _).mem hr
        exact hqueue r (by
          rcases List.mem_append.mp this with h | h
          · exact List.mem_append_right _ h
          · exact List.mem_append_left _ h)

theorem runUploader_inv (ops : List UploaderOp) : UploaderInv (runUploader ops) := by
  suffices h : ∀ (l : List UploaderOp) (s : UploaderState),
      UploaderInv s → UploaderInv (l.foldl UploaderState.step s) by
    refine h ops initUploader ⟨?_, ?_⟩ <;> simp [initUploader]
  intro l
  induction l with
  | nil => intro s h; simpa using h
  | cons op rest ih =>
    intro s h
    exact ih _ (UploaderInv_step s op h)

/-- C3: in every state reachable by any interleaving of submissions,
worker execution, batch rollovers, fence signals, consumer polls and
main-thread finalize passes, every finalized task had its `Execute`
run to completion beforehand (its id is in the execution log), and it
was finalized at a step whose completed-fence counter — recorded with
the task — had reached the task's assigned fence target. -/
theorem finalize_fence_gated (ops : List UploaderOp) :
    ∀ q ∈ (runUploader ops).finalizedLog,
      q.1.m_fenceValue ≤ q.2 ∧
      q.2 ≤ (runUploader ops).completedFence ∧
      q.1.task.id ∈ (runUploader ops).executedLog.map Prod.fst := by
  intro q hq
  exact (runUploader_inv ops).2 q hq

theorem finalize_fence_gated_witness :
    ((⟨⟨7, none⟩, 1, none⟩, 1) ∈
      (runUploader [.submit ⟨7, none⟩, .workerExecute, .signalFence 1,
        .finalize]).finalizedLog) ∧
    ((1 : ℕ) ≤ 1 ∧
      1 ≤ (runUploader [.submit ⟨7, none⟩, .workerExecute, .signalFence 1,
        .finalize]).completedFence ∧
      7 ∈ (runUploader [.submit ⟨7, none⟩, .workerExecute, .signalFence 1,
        .finalize]).executedLog.map Prod.fst) :=
  ⟨by decide,
    finalize_fence_gated [.submit ⟨7, none⟩, .workerExecute, .signalFence 1, .finalize]
      (⟨⟨7, none⟩, 1, none⟩, 1) (by decide)⟩

/-- C4: the claim fails on the code.  A task whose `Execute` reports a
failure does still proceed to `Finalize` (the worker pushes it onto the
finalize queue regardless of the result, and no error crosses the
worker/main-thread boundary), but the failure is NOT carried in the
task's own result state: `ThreadFunc` discards the value `Execute`
returns (src/d3d12_upload.cpp:139 never assigns `m_result`), so when
`Finalize` runs, `GetError()` still yields the default-constructed
success value.  Below, a task whose `Execute` returned the error
"boom" reaches the finalize step with `m_result = none` (success). -/
theorem execute_failure_result_dropped :
    (runUploader [.submit ⟨0, some "boom"⟩, .workerExecute, .signalFence 1,
        .finalize]).executedLog = [(0, some "boom")] ∧
    (runUploader [.submit ⟨0, some "boom"⟩, .workerExecute, .signalFence 1,
        .finalize]).finalizedLog.map (fun q => (q.1.task.id, q.1.m_result)) = [(0, none)] ∧
    (runUploader [.submit ⟨0, some "boom"⟩, .workerExecute, .signalFence 1,
        .finalize]).m_tasksOnGpu = [] := by
  decide

/-- C10: the claim fails on the code.  `GetExecutableCommandListIfAny`
reads `m_batches[m_currentReadIndex]` with the raw, monotonically
increasing read index (src/d3d12_upload.cpp:88) instead of going
through `GetBatch`, which applies `% m_batches.size()`.  Along the
interleaving `consumeTrace` (three batches produced and consumed, fence
counter never signalled), the three consumer polls access raw indices
0, 1 and 2 while the batch ring has size 2: the third access is out of
bounds, and the raw indices differ from the in-bounds
read-index-modulo-ring-size positions the claim describes. -/
theorem consume_raw_index_out_of_bounds :
    (runUploader consumeTrace).m_batchFences.length = 2 ∧
    (runUploader consumeTrace).readAccessLog = [0, 1, 2] ∧
    ¬(∀ i ∈ (runUploader consumeTrace).readAccessLog,
        i < (runUploader consumeTrace).m_batchFences.length) ∧
    (runUploader consumeTrace).readAccessLog ≠
      (runUploader consumeTrace).readAccessLog.map (fun i => i % 2) := by
  decide

/-! ## The capacity estimator -/

/-- C9: on every call to `Sizer::GetNextSize(requested)`, the weighted
average is first updated to `decay*weighted + (1-decay)*requested`;
the estimator then takes the grow branch — returning the new size
`weighted*expandFactor` (truncated to an integer) and resetting both
`m_currentSize` and the weighted average to that value — exactly when
`requested >= m_currentSize`; when neither the grow condition nor the
shrink condition (`weighted <= currentSize/expandFactor²`) holds it
returns no change, with `m_currentSize` unchanged and the weighted
average left at the updated value. -/
theorem sizer_getNextSize_spec (s : Sizer) (req : ℕ) (w : ℚ)
    (hw : w = s.m_sizeDecay * s.m_weightedSize + (1 - s.m_sizeDecay) * (req : ℚ)) :
    (s.m_currentSize ≤ req →
      (s.GetNextSize req).1 = some (⌊w * s.m_expandFactor⌋.toNat) ∧
      (s.GetNextSize req).2.m_currentSize = ⌊w * s.m_expandFactor⌋.toNat ∧
      (s.GetNextSize req).2.m_weightedSize = ((⌊w * s.m_expandFactor⌋.toNat : ℕ) : ℚ)) ∧
    (req < s.m_currentSize →
      ¬(w ≤ (s.m_currentSize : ℚ) / (s.m_expandFactor * s.m_expandFactor)) →
      (s.GetNextSize req).1 = none ∧
      (s.GetNextSize req).2.m_currentSize = s.m_currentSize ∧
      (s.GetNextSize req).2.m_weightedSize = w) ∧
    (req < s.m_currentSize → (s.GetNextSize req).1 ≠ none →
      w ≤ (s.m_currentSize : ℚ) / (s.m_expandFactor * s.m_expandFactor)) := by
  have hw2 : (1 - s.m_sizeDecay) * (req : ℚ) + s.m_weightedSize * s.m_sizeDecay = w := by
    rw [hw]; ring
  refine ⟨?_, ?_, ?_⟩
  · intro hge
    simp only [Sizer.GetNextSize, Sizer.Reset, hw2, if_pos hge]
    exact ⟨by trivial, by trivial, by trivial⟩
  · intro hlt hnshrink
    have hnge : ¬(s.m_currentSize ≤ req) := by omega
    simp only [Sizer.GetNextSize, Sizer.Reset, hw2, if_neg hnge, if_neg hnshrink]
    exact ⟨by trivial, by trivial, by trivial⟩
  · intro hlt hsome
    have hnge : ¬(s.m_currentSize ≤ req) := by omega
    by_contra hnshrink
    simp only [Sizer.GetNextSize, Sizer.Reset, hw2, if_neg hnge, if_neg hnshrink] at hsome
    exact hsome rfl

theorem sizer_getNextSize_spec_witness :
    ((4 : ℚ) = (1/2 : ℚ) * 4 + (1 - (1/2 : ℚ)) * ((4 : ℕ) : ℚ) ∧ (4 : ℕ) ≤ 4) ∧
    ((Sizer.mk 4 (1/2) 2 4).GetNextSize 4).1 = some 8 ∧
    ((Sizer.mk 4 (1/2) 2 4).GetNextSize 4).2.m_currentSize = 8 := by
  have h := (sizer_getNextSize_spec (Sizer.mk 4 (1/2) 2 4) 4 4 (by norm_num)).1 (by norm_num)
  have e : ⌊(4 : ℚ) * (Sizer.mk 4 (1/2) 2 4).m_expandFactor⌋.toNat = 8 := by
    show ⌊(4 : ℚ) * (2 : ℚ)⌋.toNat = 8
    norm_num
    rfl
  refine ⟨⟨by norm_num, by norm_num⟩, ?_, ?_⟩
  · rw [h.1, e]
  · rw [h.2.1, e]

/-- C8 (spec-modelled): the floor-bearing capacity estimator signals a
shrink only when the updated weighted average satisfies
`weighted <= currentSize/expandFactor²` AND the resulting size
`weighted*expandFactor` stays at or above the configured minimum floor
`m_minSize`; when the floor would be violated it signals no change and
leaves `m_currentSize` unchanged. -/
theorem sizerWithFloor_shrink_spec (s : SizerWithFloor) (req : ℕ) (w : ℚ)
    (hw : w = s.m_sizeDecay * s.m_weightedSize + (1 - s.m_sizeDecay) * (req : ℚ))
    (hreq : req < s.m_currentSize) :
    ((s.GetNextSize req).1 ≠ none →
      w ≤ (s.m_currentSize : ℚ) / (s.m_expandFactor * s.m_expandFactor) ∧
      s.m_minSize ≤ ⌊w * s.m_expandFactor⌋.toNat) ∧
    (⌊w * s.m_expandFactor⌋.toNat < s.m_minSize →
      (s.GetNextSize req).1 = none ∧
      (s.GetNextSize req).2.m_currentSize = s.m_currentSize) := by
  have hw2 : (1 - s.m_sizeDecay) * (req : ℚ) + s.m_weightedSize * s.m_sizeDecay = w := by
    rw [hw]; ring
  have hnge : ¬(s.m_currentSize ≤ req) := by omega
  constructor
  · intro hsome
    by_contra hnot
    rw [Decidable.not_and_iff_or_not] at hnot
    have hcond : ¬(w ≤ (s.m_currentSize : ℚ) / (s.m_expandFactor * s.m_expandFactor) ∧
        s.m_minSize ≤ ⌊w * s.m_expandFactor⌋.toNat) := by
      rcases hnot with h | h
      · intro hc; exact h hc.1
      · intro hc; exact h hc.2
    simp only [SizerWithFloor.GetNextSize, SizerWithFloor.Reset, hw2,
      if_neg hnge, if_neg hcond] at hsome
    exact hsome rfl
  · intro hfloor
    have hcond : ¬(w ≤ (s.m_currentSize : ℚ) / (s.m_expandFactor * s.m_expandFactor) ∧
        s.m_minSize ≤ ⌊w * s.m_expandFactor⌋.toNat) := by
      intro hc
      omega
    simp only [SizerWithFloor.GetNextSize, SizerWithFloor.Reset, hw2,
      if_neg hnge, if_neg hcond]
    exact ⟨by trivial, by trivial⟩

theorem sizerWithFloor_shrink_spec_witness :
    ((1/2 : ℚ) = (1/2 : ℚ) * 1 + (1 - (1/2 : ℚ)) * ((0 : ℕ) : ℚ) ∧ (0 : ℕ) < 100 ∧
      (⌊(1/2 : ℚ) * 2⌋.toNat < 50)) ∧
    ((SizerWithFloor.mk 1 (1/2) 2 100 50).GetNextSize 0).1 = none ∧
    ((SizerWithFloor.mk 1 (1/2) 2 100 50).GetNextSize 0).2.m_currentSize = 100 := by
  have h := (sizerWithFloor_shrink_spec (SizerWithFloor.mk 1 (1/2) 2 100 50) 0 (1/2)
    (by norm_num) (by norm_num)).2 (by norm_num)
  exact ⟨⟨by norm_num, by norm_num, by norm_num⟩, h.1, h.2⟩

end Okami



